import Mathlib

/-!
Verification of the client-side coordination layer of the bifrost
repository: the vector clock module (src/vector_clock/mod.rs) and the
Raft smart client (src/raft/client.rs).

The vector clock's `BTreeMap<S, u64>` is embedded as an association list
sorted strictly by key (`WF`), with `u64` counters as `Nat` (the code
never performs arithmetic that can wrap: `inc` adds 1 and all other
operations only copy or compare counters, so counter overflow is not
reachable in any modelled scenario).  The Raft client's atomics,
membership maps and RPC environment are embedded further below.
-/

set_option maxHeartbeats 1000000

namespace Bifrost

/-- Causal relation between two clocks, from `enum Relation`. -/
inductive Relation where
  | Equal
  | Before
  | After
  | Concurrent
deriving DecidableEq, Repr

/-- A vector clock: the `map: BTreeMap<S, u64>` field of `VectorClock`,
with source ids specialised to `Nat` (the code instantiates `S = u64`). -/
abbrev VC := List (Nat × Nat)

/-- Well-formedness: a `BTreeMap` iterates its entries in strictly
increasing key order, so the representing association list is sorted with
no duplicate keys. -/
def WF (m : VC) : Prop := List.Pairwise (fun p q => p.1 < q.1) m

instance : DecidablePred WF := fun m =>
  List.instDecidablePairwise m

/-- `*map.get(server).unwrap_or(&0)`: counter of a source, absent read as 0. -/
def getD (m : VC) (k : Nat) : Nat := (m.lookup k).getD 0

/-- Insertion into the sorted association list; replaces the value when the
key is present (the `BTreeMap` entry update). -/
def insertVC : VC → Nat → Nat → VC
  | [], s, v => [(s, v)]
  | (k, w) :: rest, s, v =>
    if s < k then (s, v) :: (k, w) :: rest
    else if s = k then (s, v) :: rest
    else (k, w) :: insertVC rest s v

/-- `VectorClock::new`. -/
def newVC : VC := []

/-- `VectorClock::inc`: `*self.map.entry(server).or_insert(0) += 1`. -/
def inc (a : VC) (s : Nat) : VC := insertVC a s (getD a s + 1)

/-- `VectorClock::happened_before`.  The Rust code walks `self`'s entries,
returning `false` as soon as `ai > bi`, then walks `clock_b`'s entries,
returning `false` as soon as `ai > bi`, accumulating the flag `a_lt_b`
across both loops; this is the same function written with `any`. -/
def happened_before (a b : VC) : Bool :=
  if a.any (fun p => decide (getD b p.1 < p.2)) then false
  else if b.any (fun p => decide (p.2 < getD a p.1)) then false
  else a.any (fun p => decide (p.2 < getD b p.1)) ||
       b.any (fun p => decide (getD a p.1 < p.2))

/-- `VectorClock::equals`: compare the key vectors, then every counter of
`self` against `clock_b`'s. -/
def equals (a b : VC) : Bool :=
  if b.map Prod.fst ≠ a.map Prod.fst then false
  else a.all (fun p =>
    match b.lookup p.1 with
    | some v => p.2 == v
    | none => false)

/-- `VectorClock::relation`. -/
def relation (a b : VC) : Relation :=
  if equals a b then Relation.Equal
  else if happened_before a b then Relation.Before
  else if happened_before b a then Relation.After
  else Relation.Concurrent

/-- `VectorClock::merge_with`: for each entry `(server, bc)` of `clock_b`,
`let ba = self.map.entry(server).or_insert(0); if ba < bc { ba = bc }`,
i.e. the entry becomes `max (getD self server) bc` and is always present
afterwards. -/
def merge_with (a b : VC) : VC :=
  b.foldl (fun acc p => insertVC acc p.1 (max (getD acc p.1) p.2)) a

/-- `VectorClock::learn_from`: `self.map.entry(server).or_insert(bc)` for
each entry of `clock_b` — only missing servers are inserted. -/
def learn_from (a b : VC) : VC :=
  b.foldl (fun acc p => if (acc.lookup p.1).isSome then acc else insertVC acc p.1 p.2) a

example : inc (inc newVC 3) 3 = [(3, 2)] := by decide
example : merge_with [(1, 2), (5, 1)] [(1, 1), (2, 7)] = [(1, 2), (2, 7), (5, 1)] := by decide
example : happened_before [(1, 1)] [(1, 1), (2, 1)] = true := by decide
example : happened_before [(1, 1)] [(1, 1)] = false := by decide
example : equals [(1, 1)] [(1, 1)] = true := by decide
example : relation [(1, 1)] [(2, 1)] = Relation.Concurrent := by decide
example : learn_from [(1, 2)] [(1, 9), (4, 3)] = [(1, 2), (4, 3)] := by decide
example : WF [(1, 2), (5, 1)] := by decide

/-! Basic lemmas about `List.lookup` and `insertVC`. -/

theorem lookup_cons (a k b : Nat) (es : VC) :
    List.lookup a ((k, b) :: es) = if a = k then some b else List.lookup a es := by
  by_cases h : a = k
  · subst h; simp [List.lookup]
  · have hb : (a == k) = false := beq_eq_false_iff_ne.mpr h
    simp [List.lookup, hb, h]

theorem lookup_insertVC_self : ∀ (a : VC) (s v : Nat), (insertVC a s v).lookup s = some v := by
  intro a
  induction a with
  | nil => intro s v; simp [insertVC, lookup_cons]
  | cons p rest ih =>
    intro s v
    obtain ⟨k, w⟩ := p
    by_cases h1 : s < k
    · simp [insertVC, h1, lookup_cons]
    · by_cases h2 : s = k
      · simp [insertVC, h1, h2, lookup_cons]
      · simp [insertVC, h1, h2, lookup_cons, ih]

theorem lookup_insertVC_ne : ∀ (a : VC) {s t : Nat} (_ : t ≠ s) (v : Nat),
    (insertVC a s v).lookup t = a.lookup t := by
  intro a
  induction a with
  | nil => intro s t h v; simp [insertVC, lookup_cons, h]
  | cons p rest ih =>
    intro s t h v
    obtain ⟨k, w⟩ := p
    by_cases h1 : s < k
    · simp [insertVC, h1, lookup_cons, h]
    · by_cases h2 : s = k
      · subst h2; simp [insertVC, h1, lookup_cons, h]
      · by_cases h3 : t = k
        · subst h3; simp [insertVC, h1, h2, lookup_cons]
        · simp [insertVC, h1, h2, h3, lookup_cons, ih h]

theorem mem_insertVC : ∀ {a : VC} {s v : Nat} {p : Nat × Nat},
    p ∈ insertVC a s v → p ∈ a ∨ p = (s, v) := by
  intro a
  induction a with
  | nil => intro s v p h; simp [insertVC] at h; simp [h]
  | cons q rest ih =>
    intro s v p h
    obtain ⟨k, w⟩ := q
    by_cases h1 : s < k
    · simp [insertVC, h1] at h
      rcases h with h | h | h
      · right; simp [h]
      · left; simp [h]
      · left; simp [h]
    · by_cases h2 : s = k
      · subst h2
        simp [insertVC, h1] at h
        rcases h with h | h
        · right; simp [h]
        · left; simp [h]
      · simp [insertVC, h1, h2] at h
        rcases h with h | h
        · left; simp [h]
        · rcases ih h with h3 | h3
          · left; simp [h3]
          · right; exact h3

theorem keys_insertVC : ∀ (a : VC) (s v t : Nat),
    t ∈ (insertVC a s v).map Prod.fst ↔ t = s ∨ t ∈ a.map Prod.fst := by
  intro a
  induction a with
  | nil => intro s v t; simp [insertVC]
  | cons q rest ih =>
    intro s v t
    obtain ⟨k, w⟩ := q
    by_cases h1 : s < k
    · simp [insertVC, h1]
    · by_cases h2 : s = k
      · subst h2; simp [insertVC, h1]
      · simp [insertVC, h1, h2, ih]; tauto

theorem WF_insertVC : ∀ {a : VC} (_ : WF a) (s v : Nat), WF (insertVC a s v) := by
  intro a
  induction a with
  | nil => intro _ s v; simp [insertVC, WF]
  | cons q rest ih =>
    intro hw s v
    obtain ⟨k, w⟩ := q
    rw [WF, List.pairwise_cons] at hw
    obtain ⟨hk, hrest⟩ := hw
    by_cases h1 : s < k
    · rw [WF]; simp only [insertVC, if_pos h1]
      refine List.Pairwise.cons ?_ (List.Pairwise.cons hk hrest)
      intro q hq
      rcases List.mem_cons.mp hq with h | h
      · subst h; exact h1
      · exact lt_trans h1 (hk q h)
    · by_cases h2 : s = k
      · subst h2
        rw [WF]; simp only [insertVC, if_neg h1, if_pos rfl]
        exact List.Pairwise.cons hk hrest
      · rw [WF]; simp only [insertVC, if_neg h1, if_neg h2]
        refine List.Pairwise.cons ?_ (ih hrest s v)
        intro q hq
        rcases mem_insertVC hq with h | h
        · exact hk q h
        · subst h
          exact lt_of_le_of_ne (le_of_not_lt h1) (fun he => h2 he.symm)

theorem lookup_mem : ∀ {l : VC} {k v : Nat}, l.lookup k = some v → (k, v) ∈ l := by
  intro l
  induction l with
  | nil => intro k v h; simp [List.lookup] at h
  | cons p rest ih =>
    intro k v h
    obtain ⟨a, b⟩ := p
    rw [lookup_cons] at h
    by_cases h1 : k = a
    · simp [h1] at h; simp [h1, h]
    · simp [h1] at h
      exact List.mem_cons_of_mem _ (ih h)

theorem mem_lookup : ∀ {l : VC} (_ : WF l) {k v : Nat}, (k, v) ∈ l → l.lookup k = some v := by
  intro l
  induction l with
  | nil => intro _ k v h; simp at h
  | cons p rest ih =>
    intro hw k v h
    obtain ⟨a, b⟩ := p
    rw [WF, List.pairwise_cons] at hw
    obtain ⟨ha, hrest⟩ := hw
    rcases List.mem_cons.mp h with h | h
    · rw [Prod.mk.injEq] at h
      obtain ⟨h1, h2⟩ := h
      subst h1; subst h2
      simp [lookup_cons]
    · have : a < k := ha (k, v) h
      have hne : ¬ k = a := by omega
      rw [lookup_cons, if_neg hne]
      exact ih hrest h

theorem lookup_none_iff : ∀ {l : VC} {k : Nat}, l.lookup k = none ↔ k ∉ l.map Prod.fst := by
  intro l
  induction l with
  | nil => intro k; simp [List.lookup]
  | cons p rest ih =>
    intro k
    obtain ⟨a, b⟩ := p
    rw [lookup_cons]
    by_cases h1 : k = a
    · simp [h1]
    · simp [h1, ih]

theorem lookup_getD_of_isSome {l : VC} {k : Nat} (h : (l.lookup k).isSome) :
    l.lookup k = some (getD l k) := by
  rw [getD]
  cases hl : l.lookup k with
  | none => rw [hl] at h; simp at h
  | some v => simp

theorem getD_pos_lookup {l : VC} {k : Nat} (h : 0 < getD l k) :
    l.lookup k = some (getD l k) := by
  rw [getD] at h ⊢
  cases hl : l.lookup k with
  | none => rw [hl] at h; simp at h
  | some v => simp

theorem getD_of_mem {l : VC} (hw : WF l) {k v : Nat} (h : (k, v) ∈ l) : getD l k = v := by
  rw [getD, mem_lookup hw h]
  rfl

theorem getD_of_not_mem {l : VC} {k : Nat} (h : k ∉ l.map Prod.fst) : getD l k = 0 := by
  rw [getD, lookup_none_iff.mpr h]
  rfl

theorem getD_cons (k v s : Nat) (rest : VC) :
    getD ((k, v) :: rest) s = if s = k then v else getD rest s := by
  rw [getD, lookup_cons]
  by_cases h : s = k <;> simp [h, getD]

theorem getD_insertVC_self (a : VC) (s v : Nat) : getD (insertVC a s v) s = v := by
  rw [getD, lookup_insertVC_self]; rfl

theorem getD_insertVC_ne (a : VC) {s t : Nat} (h : t ≠ s) (v : Nat) :
    getD (insertVC a s v) t = getD a t := by
  rw [getD, lookup_insertVC_ne a h]; rfl

/-! Lemmas about `merge_with`. -/

theorem merge_with_nil (a : VC) : merge_with a [] = a := rfl

theorem merge_with_cons (a : VC) (p : Nat × Nat) (rest : VC) :
    merge_with a (p :: rest) = merge_with (insertVC a p.1 (max (getD a p.1) p.2)) rest := rfl

theorem getD_merge_with : ∀ {b : VC} (_ : WF b) (a : VC) (s : Nat),
    getD (merge_with a b) s = max (getD a s) (getD b s) := by
  intro b
  induction b with
  | nil => intro _ a s; simp [merge_with_nil, getD]
  | cons p rest ih =>
    intro hw a s
    obtain ⟨k, v⟩ := p
    rw [WF, List.pairwise_cons] at hw
    obtain ⟨hk, hrest⟩ := hw
    rw [merge_with_cons, ih hrest, getD_cons]
    by_cases h : s = k
    · subst h
      rw [getD_insertVC_self]
      have hnot : s ∉ rest.map Prod.fst := by
        intro hmem
        rcases List.mem_map.mp hmem with ⟨q, hq, hq1⟩
        have := hk q hq
        omega
      rw [getD_of_not_mem hnot]
      simp
    · rw [if_neg h, getD_insertVC_ne a h]

theorem keys_merge_with : ∀ (b a : VC) (t : Nat),
    t ∈ (merge_with a b).map Prod.fst ↔ t ∈ a.map Prod.fst ∨ t ∈ b.map Prod.fst := by
  intro b
  induction b with
  | nil => intro a t; simp [merge_with_nil]
  | cons p rest ih =>
    intro a t
    obtain ⟨k, v⟩ := p
    rw [merge_with_cons, ih, keys_insertVC]
    simp
    tauto

theorem WF_merge_with : ∀ (b : VC) {a : VC} (_ : WF a), WF (merge_with a b) := by
  intro b
  induction b with
  | nil => intro a hw; exact hw
  | cons p rest ih =>
    intro a hw
    rw [merge_with_cons]
    exact ih (WF_insertVC hw _ _)

/-! Characterizations of `happened_before` and `equals` on well-formed clocks. -/

theorem happened_before_iff {a b : VC} (ha : WF a) (hb : WF b) :
    happened_before a b = true ↔
      ((∀ s, getD a s ≤ getD b s) ∧ ∃ s, getD a s < getD b s) := by
  rw [happened_before]
  by_cases h1 : a.any (fun p => decide (getD b p.1 < p.2)) = true
  · rw [if_pos h1]
    constructor
    · intro h; simp at h
    · rintro ⟨hle, _⟩
      exfalso
      rcases List.any_eq_true.mp h1 with ⟨p, hp, hpd⟩
      obtain ⟨s, v⟩ := p
      rw [decide_eq_true_iff] at hpd
      have hpd2 : getD b s < v := hpd
      have hv : getD a s = v := getD_of_mem ha hp
      have := hle s
      omega
  · rw [if_neg h1]
    by_cases h2 : b.any (fun p => decide (p.2 < getD a p.1)) = true
    · rw [if_pos h2]
      constructor
      · intro h; simp at h
      · rintro ⟨hle, _⟩
        exfalso
        rcases List.any_eq_true.mp h2 with ⟨p, hp, hpd⟩
        obtain ⟨s, v⟩ := p
        rw [decide_eq_true_iff] at hpd
        have hpd2 : v < getD a s := hpd
        have hv : getD b s = v := getD_of_mem hb hp
        have := hle s
        omega
    · rw [if_neg h2]
      have hle : ∀ s, getD a s ≤ getD b s := by
        intro s
        cases hl : a.lookup s with
        | none =>
          have : getD a s = 0 := by rw [getD, hl]; rfl
          omega
        | some v =>
          have hv : getD a s = v := by rw [getD, hl]; rfl
          by_contra hlt
          apply h1
          rw [List.any_eq_true]
          refine ⟨(s, v), lookup_mem hl, ?_⟩
          rw [decide_eq_true_iff]
          show getD b s < v
          omega
      constructor
      · intro h
        refine ⟨hle, ?_⟩
        rcases Bool.or_eq_true_iff.mp h with h3 | h3
        · rcases List.any_eq_true.mp h3 with ⟨p, hp, hpd⟩
          obtain ⟨s, v⟩ := p
          rw [decide_eq_true_iff] at hpd
          have hpd2 : v < getD b s := hpd
          have hv : getD a s = v := getD_of_mem ha hp
          exact ⟨s, by omega⟩
        · rcases List.any_eq_true.mp h3 with ⟨p, hp, hpd⟩
          obtain ⟨s, v⟩ := p
          rw [decide_eq_true_iff] at hpd
          have hpd2 : getD a s < v := hpd
          have hv : getD b s = v := getD_of_mem hb hp
          exact ⟨s, by omega⟩
      · rintro ⟨_, s, hs⟩
        apply Bool.or_eq_true_iff.mpr
        right
        rw [List.any_eq_true]
        have hpos : 0 < getD b s := by omega
        refine ⟨(s, getD b s), lookup_mem (getD_pos_lookup hpos), ?_⟩
        rw [decide_eq_true_iff]
        show getD a s < getD b s
        omega

theorem eq_of_lookup_ext : ∀ {a b : VC}, WF a → WF b →
    (∀ s, a.lookup s = b.lookup s) → a = b := by
  intro a
  induction a with
  | nil =>
    intro b _ _ h
    cases b with
    | nil => rfl
    | cons q rest2 =>
      obtain ⟨k2, w⟩ := q
      have := h k2
      rw [lookup_cons, if_pos rfl] at this
      simp [List.lookup] at this
  | cons p rest ih =>
    intro b hwa hwb h
    obtain ⟨k, v⟩ := p
    cases b with
    | nil =>
      have := h k
      rw [lookup_cons, if_pos rfl] at this
      simp [List.lookup] at this
    | cons q rest2 =>
      obtain ⟨k2, w⟩ := q
      rw [WF, List.pairwise_cons] at hwa hwb
      obtain ⟨hka, hwra⟩ := hwa
      obtain ⟨hkb, hwrb⟩ := hwb
      have hkk : k = k2 := by
        by_contra hne
        have ha := h k
        rw [lookup_cons, if_pos rfl, lookup_cons, if_neg hne] at ha
        have hb2 := h k2
        rw [lookup_cons, if_neg (fun he => hne he.symm), lookup_cons, if_pos rfl] at hb2
        have h1 : (k, v) ∈ rest2 := lookup_mem ha.symm
        have h2 : (k2, w) ∈ rest := lookup_mem hb2
        have c1 : k2 < k := hkb (k, v) h1
        have c2 : k < k2 := hka (k2, w) h2
        omega
      subst hkk
      have hv : v = w := by
        have := h k
        rw [lookup_cons, if_pos rfl, lookup_cons, if_pos rfl] at this
        exact Option.some.inj this
      subst hv
      have htail : ∀ s, rest.lookup s = rest2.lookup s := by
        intro s
        by_cases hs : s = k
        · subst hs
          have h1 : s ∉ rest.map Prod.fst := by
            intro hmem
            rcases List.mem_map.mp hmem with ⟨q, hq, hq1⟩
            have := hka q hq
            omega
          have h2 : s ∉ rest2.map Prod.fst := by
            intro hmem
            rcases List.mem_map.mp hmem with ⟨q, hq, hq1⟩
            have := hkb q hq
            omega
          rw [lookup_none_iff.mpr h1, lookup_none_iff.mpr h2]
        · have := h s
          rw [lookup_cons, if_neg hs, lookup_cons, if_neg hs] at this
          exact this
      rw [ih hwra hwrb htail]

theorem equals_refl {a : VC} (ha : WF a) : equals a a = true := by
  rw [equals, if_neg (fun h => h rfl)]
  rw [List.all_eq_true]
  intro p hp
  rw [mem_lookup ha hp]
  simp

theorem eq_of_equals {a b : VC} (ha : WF a) (hb : WF b) (h : equals a b = true) : a = b := by
  rw [equals] at h
  by_cases hk : b.map Prod.fst ≠ a.map Prod.fst
  · rw [if_pos hk] at h; simp at h
  · rw [if_neg hk] at h
    push_neg at hk
    rw [List.all_eq_true] at h
    apply eq_of_lookup_ext ha hb
    intro s
    cases hl : a.lookup s with
    | some v =>
      have hm := lookup_mem hl
      have hh := h (s, v) hm
      simp only at hh
      cases hbl : b.lookup s with
      | some w =>
        rw [hbl] at hh
        simp at hh
        rw [hh]
      | none => rw [hbl] at hh; simp at hh
    | none =>
      have h1 : s ∉ a.map Prod.fst := lookup_none_iff.mp hl
      have h2 : s ∉ b.map Prod.fst := by rw [hk]; exact h1
      exact (lookup_none_iff.mpr h2).symm

theorem equals_iff_eq {a b : VC} (ha : WF a) (hb : WF b) :
    equals a b = true ↔ a = b := by
  constructor
  · exact eq_of_equals ha hb
  · intro h; subst h; exact equals_refl ha

theorem eq_of_getD_ext {a b : VC} (ha : WF a) (hb : WF b)
    (hpa : ∀ p ∈ a, 0 < p.2) (hpb : ∀ p ∈ b, 0 < p.2)
    (h : ∀ s, getD a s = getD b s) : a = b := by
  apply eq_of_lookup_ext ha hb
  intro s
  cases hl : a.lookup s with
  | some v =>
    have hv : getD a s = v := by rw [getD, hl]; rfl
    have hvpos : 0 < v := hpa (s, v) (lookup_mem hl)
    have hbpos : 0 < getD b s := by rw [← h s]; omega
    rw [getD_pos_lookup hbpos, ← h s, hv]
  | none =>
    have h0 : getD a s = 0 := by rw [getD, hl]; rfl
    cases hbl : b.lookup s with
    | none => rfl
    | some w =>
      exfalso
      have hw : getD b s = w := by rw [getD, hbl]; rfl
      have hwpos : 0 < w := hpb (s, w) (lookup_mem hbl)
      have := h s
      omega

/-- C6: after `A.merge_with(B)` the counter at each source is the pointwise
maximum of the previous counters (absent read as 0); keys of `B` absent from
`A` end up present with `B`'s value; no key of `A` is removed. -/
theorem merge_with_pointwise_max {a b : VC} (_ha : WF a) (hb : WF b) :
    (∀ s, getD (merge_with a b) s = max (getD a s) (getD b s)) ∧
    (∀ s, s ∈ b.map Prod.fst → s ∉ a.map Prod.fst →
      (merge_with a b).lookup s = some (getD b s)) ∧
    (∀ s, s ∈ a.map Prod.fst → s ∈ (merge_with a b).map Prod.fst) := by
  refine ⟨fun s => getD_merge_with hb a s, ?_, ?_⟩
  · intro s hsb hsa
    have hk : s ∈ (merge_with a b).map Prod.fst := (keys_merge_with b a s).mpr (Or.inr hsb)
    have hsome : ((merge_with a b).lookup s).isSome := by
      cases hl : (merge_with a b).lookup s with
      | none => exact absurd hk (lookup_none_iff.mp hl)
      | some v => simp
    rw [lookup_getD_of_isSome hsome, getD_merge_with hb, getD_of_not_mem hsa]
    simp
  · intro s hsa
    exact (keys_merge_with b a s).mpr (Or.inl hsa)

theorem merge_with_pointwise_max_witness :
    WF [(1, 2)] ∧ WF [(2, 3)] ∧
    ((∀ s, getD (merge_with [(1, 2)] [(2, 3)]) s = max (getD [(1, 2)] s) (getD [(2, 3)] s)) ∧
     (∀ s, s ∈ [(2, 3)].map Prod.fst → s ∉ [(1, 2)].map Prod.fst →
       (merge_with [(1, 2)] [(2, 3)]).lookup s = some (getD [(2, 3)] s)) ∧
     (∀ s, s ∈ [(1, 2)].map Prod.fst → s ∈ (merge_with [(1, 2)] [(2, 3)]).map Prod.fst)) :=
  ⟨by decide, by decide, merge_with_pointwise_max (by decide) (by decide)⟩

/-- C7: `A.happened_before(B)` is true iff no component of `A` exceeds the
corresponding component of `B` (absent counters read as 0) and some component
of `A` is strictly below `B`'s — including keys present only in `B`. -/
theorem happened_before_characterization {a b : VC} (ha : WF a) (hb : WF b) :
    happened_before a b = true ↔
      ((∀ s, getD a s ≤ getD b s) ∧ ∃ s, getD a s < getD b s) :=
  happened_before_iff ha hb

theorem happened_before_characterization_witness :
    WF [(1, 1)] ∧ WF [(1, 1), (2, 1)] ∧
    (happened_before [(1, 1)] [(1, 1), (2, 1)] = true ↔
      ((∀ s, getD [(1, 1)] s ≤ getD [(1, 1), (2, 1)] s) ∧
       ∃ s, getD [(1, 1)] s < getD [(1, 1), (2, 1)] s)) :=
  ⟨by decide, by decide, happened_before_characterization (by decide) (by decide)⟩

theorem merge_lub_disj {a b : VC} (ha : WF a) (hb : WF b)
    (hpos : ∀ p ∈ a, 0 < p.2) :
    happened_before b (merge_with a b) = true ∨ equals b (merge_with a b) = true := by
  have hwm : WF (merge_with a b) := WF_merge_with b ha
  by_cases hstrict : ∃ s, getD b s < getD (merge_with a b) s
  · left
    rw [happened_before_iff hb hwm]
    refine ⟨fun s => ?_, hstrict⟩
    rw [getD_merge_with hb a s]
    exact le_max_right _ _
  · right
    rw [equals_iff_eq hb hwm]
    push_neg at hstrict
    have hgeq : ∀ s, getD (merge_with a b) s = getD b s := fun s =>
      le_antisymm (hstrict s) (by rw [getD_merge_with hb a s]; exact le_max_right _ _)
    apply eq_of_lookup_ext hb hwm
    intro s
    cases hl : b.lookup s with
    | some v =>
      have hv : getD b s = v := by rw [getD, hl]; rfl
      have hk : s ∈ (merge_with a b).map Prod.fst :=
        (keys_merge_with b a s).mpr (Or.inr (List.mem_map.mpr ⟨(s, v), lookup_mem hl, rfl⟩))
      have hsome : ((merge_with a b).lookup s).isSome := by
        cases hl2 : (merge_with a b).lookup s with
        | none => exact absurd hk (lookup_none_iff.mp hl2)
        | some w => simp
      rw [lookup_getD_of_isSome hsome, hgeq s, hv]
    | none =>
      have hnb : s ∉ b.map Prod.fst := lookup_none_iff.mp hl
      have hb0 : getD b s = 0 := getD_of_not_mem hnb
      have hna : s ∉ a.map Prod.fst := by
        intro hmem
        rcases List.mem_map.mp hmem with ⟨p, hp, hfst⟩
        have hv := hpos p hp
        have hva : getD a p.1 = p.2 := getD_of_mem ha hp
        have hme := hgeq s
        rw [getD_merge_with hb a s] at hme
        rw [hfst] at hva
        omega
      have hnm : s ∉ (merge_with a b).map Prod.fst := fun hm => by
        rcases (keys_merge_with b a s).mp hm with h | h
        exacts [hna h, hnb h]
      rw [lookup_none_iff.mpr hnm]

/-- C8 (amended): for all clocks, after `A.merge_with(B)` the merged clock
is greater than or equal to each of the two operands component-wise; and
when every counter of `A` is strictly positive, either `B.happened_before(A)`
or `B.equals(A)`.  Only the disjunction needs the positivity hypothesis — it
is what the counterexample `A = {1 ↦ 0}`, `B = {}` refutes; the
component-wise bound is proven for all clocks. -/
theorem merge_lub_amended {a b : VC} (ha : WF a) (hb : WF b) :
    ((∀ p ∈ a, 0 < p.2) →
      (happened_before b (merge_with a b) = true ∨ equals b (merge_with a b) = true)) ∧
    (∀ s, getD a s ≤ getD (merge_with a b) s ∧ getD b s ≤ getD (merge_with a b) s) := by
  refine ⟨fun hpos => merge_lub_disj ha hb hpos, fun s => ?_⟩
  rw [getD_merge_with hb a s]
  exact ⟨le_max_left _ _, le_max_right _ _⟩

/-- C8 counterexample: with `A = {1 ↦ 0}` and `B = {}` (both valid `BTreeMap`
contents), after `A.merge_with(B)` neither `B.happened_before(A)` nor
`B.equals(A)` holds. -/
theorem merge_lub_cex :
    happened_before [] (merge_with [(1, 0)] []) = false ∧
    equals [] (merge_with [(1, 0)] []) = false := by decide

theorem merge_lub_amended_witness :
    WF [(1, 2)] ∧ WF [(2, 3)] ∧ (∀ p ∈ [(1, 2)], 0 < Prod.snd p) ∧
    ((happened_before [(2, 3)] (merge_with [(1, 2)] [(2, 3)]) = true ∨
      equals [(2, 3)] (merge_with [(1, 2)] [(2, 3)]) = true) ∧
     (∀ s, getD [(1, 2)] s ≤ getD (merge_with [(1, 2)] [(2, 3)]) s ∧
           getD [(2, 3)] s ≤ getD (merge_with [(1, 2)] [(2, 3)]) s)) :=
  ⟨by decide, by decide, by decide,
    (merge_lub_amended (by decide) (by decide)).1 (by decide),
    (merge_lub_amended (by decide) (by decide)).2⟩

/-- C9 (amended): for clocks all of whose counters are strictly positive
(which rules out stored zero counters, the only way a present key can differ
from an absent one), agreement of every counter with absent keys read as 0
implies `equals` returns true and `relation` returns `Equal`.  (The unamended
claim fails for `A = {1 ↦ 0}`, `B = {}`: they agree pointwise yet `equals`
compares key sets and returns false, and `relation` returns `Concurrent`.) -/
theorem comparison_zero_amended {a b : VC} (ha : WF a) (hb : WF b)
    (hpa : ∀ p ∈ a, 0 < p.2) (hpb : ∀ p ∈ b, 0 < p.2)
    (h : ∀ s, getD a s = getD b s) :
    equals a b = true ∧ relation a b = Relation.Equal := by
  have heq : a = b := eq_of_getD_ext ha hb hpa hpb h
  subst heq
  refine ⟨equals_refl ha, ?_⟩
  rw [relation, if_pos (equals_refl ha)]

/-- C9 counterexample: `A = {1 ↦ 0}` and `B = {}` agree on every source when
absent keys are read as 0, yet `equals` is false and `relation` is
`Concurrent`, not `Equal`. -/
theorem comparison_zero_cex :
    (∀ s, getD [(1, 0)] s = getD ([] : VC) s) ∧
    equals [(1, 0)] [] = false ∧
    relation [(1, 0)] [] = Relation.Concurrent := by
  refine ⟨?_, by decide, by decide⟩
  intro s
  by_cases h : s = 1
  · subst h; decide
  · rw [getD_cons, if_neg h]

theorem comparison_zero_amended_witness :
    WF [(3, 7)] ∧ WF [(3, 7)] ∧ (∀ p ∈ [(3, 7)], 0 < Prod.snd p) ∧
    (∀ p ∈ [(3, 7)], 0 < Prod.snd p) ∧ (∀ s, getD [(3, 7)] s = getD [(3, 7)] s) ∧
    (equals [(3, 7)] [(3, 7)] = true ∧ relation [(3, 7)] [(3, 7)] = Relation.Equal) :=
  ⟨by decide, by decide, by decide, by decide, fun _ => rfl,
    comparison_zero_amended (by decide) (by decide) (by decide) (by decide) (fun _ => rfl)⟩

/-! Reachable clocks (claim C10). -/

/-- Clocks reachable from `new()` by `inc`, `merge_with` and `learn_from`,
with argument clocks themselves reachable. -/
inductive Reachable : VC → Prop where
  | vnew : Reachable newVC
  | vinc (a : VC) (s : Nat) : Reachable a → Reachable (inc a s)
  | vmerge (a b : VC) : Reachable a → Reachable b → Reachable (merge_with a b)
  | vlearn (a b : VC) : Reachable a → Reachable b → Reachable (learn_from a b)

theorem pos_insertVC {a : VC} (hp : ∀ p ∈ a, 0 < p.2) {s v : Nat} (hv : 0 < v) :
    ∀ p ∈ insertVC a s v, 0 < p.2 := by
  intro p hmem
  rcases mem_insertVC hmem with h | h
  · exact hp p h
  · rw [h]; exact hv

theorem pos_inc {a : VC} (hp : ∀ p ∈ a, 0 < p.2) (s : Nat) :
    ∀ p ∈ inc a s, 0 < p.2 :=
  pos_insertVC hp (Nat.succ_pos _)

theorem pos_merge : ∀ {b a : VC}, (∀ p ∈ a, 0 < p.2) → (∀ p ∈ b, 0 < p.2) →
    ∀ p ∈ merge_with a b, 0 < p.2 := by
  intro b
  induction b with
  | nil => intro a hpa _ p hp; exact hpa p hp
  | cons q rest ih =>
    intro a hpa hpb p hp
    obtain ⟨k, v⟩ := q
    rw [merge_with_cons] at hp
    have hv : 0 < v := hpb (k, v) (List.mem_cons_self _ _)
    have hpa2 : ∀ p ∈ insertVC a k (max (getD a k) v), 0 < p.2 :=
      pos_insertVC hpa (by omega)
    have hpb2 : ∀ p ∈ rest, 0 < p.2 := fun p hp => hpb p (List.mem_cons_of_mem _ hp)
    exact ih hpa2 hpb2 p hp

theorem learn_from_nil (a : VC) : learn_from a [] = a := rfl

theorem learn_from_cons (a : VC) (p : Nat × Nat) (rest : VC) :
    learn_from a (p :: rest) =
      learn_from (if (a.lookup p.1).isSome then a else insertVC a p.1 p.2) rest := rfl

theorem pos_learn : ∀ {b a : VC}, (∀ p ∈ a, 0 < p.2) → (∀ p ∈ b, 0 < p.2) →
    ∀ p ∈ learn_from a b, 0 < p.2 := by
  intro b
  induction b with
  | nil => intro a hpa _ p hp; exact hpa p hp
  | cons q rest ih =>
    intro a hpa hpb p hp
    obtain ⟨k, v⟩ := q
    rw [learn_from_cons] at hp
    have hv : 0 < v := hpb (k, v) (List.mem_cons_self _ _)
    have hpb2 : ∀ p ∈ rest, 0 < p.2 := fun p hp => hpb p (List.mem_cons_of_mem _ hp)
    by_cases hs : (a.lookup (k, v).1).isSome
    · rw [if_pos hs] at hp
      exact ih hpa hpb2 p hp
    · rw [if_neg hs] at hp
      exact ih (pos_insertVC hpa hv) hpb2 p hp

/-- C10: every vector clock reachable from `new()` by `inc`, `merge_with` and
`learn_from` (with reachable arguments) holds only strictly positive
counters: no key is mapped to 0. -/
theorem reachable_counters_positive {c : VC} (h : Reachable c) : ∀ p ∈ c, 0 < p.2 := by
  induction h with
  | vnew => intro p hp; simp [newVC] at hp
  | vinc a s _ ih => exact pos_inc ih s
  | vmerge a b _ _ iha ihb => exact pos_merge iha ihb
  | vlearn a b _ _ iha ihb => exact pos_learn iha ihb

theorem reachable_counters_positive_witness :
    ((0, 1) : Nat × Nat) ∈ inc newVC 0 ∧ 0 < Prod.snd ((0, 1) : Nat × Nat) :=
  ⟨by decide,
    reachable_counters_positive (Reachable.vinc newVC 0 Reachable.vnew) (0, 1) (by decide)⟩

/-!
Raft smart client (src/raft/client.rs).

Server addresses (`String`) are embedded as `Nat`; `bifrost_hasher::hash_str`
is an uninterpreted parameter `hash : Nat → Nat`.  The external RPC world
(the connection pool and each server's replies) is an oracle environment: a
`pool` predicate saying which addresses yield a stub from
`rpc::DEFAULT_CLIENT_POOL.get`, and response functions modelling the nested
`Ok(Ok(...))` results (any transport- or application-level failure is folded
into the failing alternative, since the code treats all of them alike).
RPC stubs carry no data of their own, so the `clients: BTreeMap<u64, stub>`
is embedded as its sorted key list.
-/

/-- `enum ClientError`. -/
inductive ClientError where
  | LeaderIdValid
  | ServerUnreachable
deriving DecidableEq, Repr

/-- The variants of the external `ExecError` that `client.rs` produces. -/
inductive ExecError where
  | TooManyRetry
  | NotCommitted
  | Unknown
deriving DecidableEq, Repr

/-- `ClientClusterInfo { members: list of (id, address), leader_id }`. -/
structure ClientClusterInfo where
  members : List (Nat × Nat)
  leader_id : Nat
deriving DecidableEq, Repr

/-- `struct Members { clients: BTreeMap<u64, stub>, id_map: HashMap<u64, String> }`,
with `clients` as its sorted key list. -/
structure Members where
  clients : List Nat
  id_map : List (Nat × Nat)
deriving DecidableEq, Repr

/-- Environment for one membership refresh: which addresses the connection
pool can reach, and which servers answer `c_server_cluster_info` with
`Ok(Ok(info))`. -/
structure UpdEnv where
  pool : Nat → Bool
  cluster_info : Nat → Option ClientClusterInfo

/-- `BTreeMap` key insertion (no-op when present; `clients` values are unit). -/
def insortNat (id : Nat) : List Nat → List Nat
  | [] => [id]
  | k :: rest =>
    if id < k then id :: k :: rest
    else if id = k then k :: rest
    else k :: insortNat id rest

/-- `HashMap::insert`: replace the entry if the key exists, else add it. -/
def hinsert : List (Nat × Nat) → Nat → Nat → List (Nat × Nat)
  | [], k, v => [(k, v)]
  | (k2, w) :: rest, k, v =>
    if k2 = k then (k, v) :: rest else (k2, w) :: hinsert rest k v

/-- The candidate loop of `update_info` (client.rs lines 76-93): for each
address, connect when not yet connected (skipping the address when the pool
fails), then ask for cluster info, adopting the first reply whose
`leader_id` is non-zero. -/
def fetchInfo (hash : Nat → Nat) (env : UpdEnv) :
    List Nat → Members → Members × Option ClientClusterInfo
  | [], m => (m, none)
  | addr :: rest, m =>
    let id := hash addr
    if id ∈ m.clients then
      match env.cluster_info id with
      | some info =>
        if info.leader_id ≠ 0 then (m, some info) else fetchInfo hash env rest m
      | none => fetchInfo hash env rest m
    else if env.pool addr then
      let m2 : Members := { m with clients := insortNat id m.clients }
      match env.cluster_info id with
      | some info =>
        if info.leader_id ≠ 0 then (m2, some info) else fetchInfo hash env rest m2
      | none => fetchInfo hash env rest m2
    else fetchInfo hash env rest m

/-- The adoption phase of `update_info` (client.rs lines 95-116): rebuild
`id_map` from the authoritative info, evict clients whose ids are no longer
members, and connect to newly learned ids (skipping pool failures). -/
def applyInfo (env : UpdEnv) (m : Members) (info : ClientClusterInfo) : Members :=
  let remote := info.members
  let idm := remote.foldl (fun mp p => hinsert mp p.1 p.2) []
  let remote_ids := remote.map Prod.fst
  let connected := m.clients
  let kept := connected.filter (fun id => decide (id ∈ remote_ids))
  let fresh := remote_ids.filter (fun id => decide (id ∉ connected))
  let clients2 := fresh.foldl (fun cs id =>
    match idm.lookup id with
    | some addr => if id ∈ cs then cs else if env.pool addr then insortNat id cs else cs
    | none => cs) kept
  { clients := clients2, id_map := idm }

/-- `RaftClient::update_info`: returns the new `Members`, the leader id
published to the owning client (when authoritative info was adopted), and
the call's result. -/
def update_info (hash : Nat → Nat) (env : UpdEnv) (m : Members) (addrs : List Nat) :
    Members × Option Nat × Except ClientError Unit :=
  match fetchInfo hash env addrs m with
  | (m2, some info) => (applyInfo env m2 info, some info.leader_id, Except.ok ())
  | (m2, none) => (m2, none, Except.error ClientError.ServerUnreachable)

theorem mem_insortNat : ∀ {l : List Nat} {id a : Nat},
    a ∈ insortNat id l ↔ a = id ∨ a ∈ l := by
  intro l
  induction l with
  | nil => intro id a; simp [insortNat]
  | cons k rest ih =>
    intro id a
    by_cases h1 : id < k
    · simp [insortNat, h1]
    · by_cases h2 : id = k
      · subst h2; simp [insortNat, h1]
      · simp [insortNat, h1, h2, ih]; tauto

theorem fetchInfo_fail {hash : Nat → Nat} {env : UpdEnv} :
    ∀ {addrs : List Nat} (m : Members),
    (∀ a ∈ addrs, ∀ info, env.cluster_info (hash a) = some info → info.leader_id = 0) →
    (fetchInfo hash env addrs m).2 = none ∧
    (fetchInfo hash env addrs m).1.id_map = m.id_map ∧
    (∀ id ∈ m.clients, id ∈ (fetchInfo hash env addrs m).1.clients) := by
  intro addrs
  induction addrs with
  | nil => intro m _; exact ⟨rfl, rfl, fun id h => h⟩
  | cons addr rest ih =>
    intro m h
    have hhead := h addr (List.mem_cons_self _ _)
    have htail : ∀ a ∈ rest, ∀ info, env.cluster_info (hash a) = some info →
        info.leader_id = 0 :=
      fun a ha info hi => h a (List.mem_cons_of_mem _ ha) info hi
    by_cases hc : hash addr ∈ m.clients
    · cases hinfo : env.cluster_info (hash addr) with
      | some info =>
        have hz : info.leader_id = 0 := hhead info hinfo
        have hred : fetchInfo hash env (addr :: rest) m = fetchInfo hash env rest m := by
          simp only [fetchInfo, if_pos hc, hinfo, hz]
          simp
        rw [hred]
        exact ih m htail
      | none =>
        have hred : fetchInfo hash env (addr :: rest) m = fetchInfo hash env rest m := by
          simp only [fetchInfo, if_pos hc, hinfo]
        rw [hred]
        exact ih m htail
    · by_cases hp : env.pool addr
      · cases hinfo : env.cluster_info (hash addr) with
        | some info =>
          have hz : info.leader_id = 0 := hhead info hinfo
          have hred : fetchInfo hash env (addr :: rest) m =
              fetchInfo hash env rest { m with clients := insortNat (hash addr) m.clients } := by
            simp only [fetchInfo, if_neg hc, if_pos hp, hinfo, hz]
            simp
          rw [hred]
          obtain ⟨h1, h2, h3⟩ := ih { m with clients := insortNat (hash addr) m.clients } htail
          refine ⟨h1, h2, fun id hid => h3 id ?_⟩
          exact mem_insortNat.mpr (Or.inr hid)
        | none =>
          have hred : fetchInfo hash env (addr :: rest) m =
              fetchInfo hash env rest { m with clients := insortNat (hash addr) m.clients } := by
            simp only [fetchInfo, if_neg hc, if_pos hp, hinfo]
          rw [hred]
          obtain ⟨h1, h2, h3⟩ := ih { m with clients := insortNat (hash addr) m.clients } htail
          refine ⟨h1, h2, fun id hid => h3 id ?_⟩
          exact mem_insortNat.mpr (Or.inr hid)
      · have hred : fetchInfo hash env (addr :: rest) m = fetchInfo hash env rest m := by
          simp only [fetchInfo, if_neg hc]
          rw [if_neg (by simp [hp])]
        rw [hred]
        exact ih m htail

/-- C4: when no candidate server yields cluster info with a non-zero
`leader_id`, `update_info` returns `ServerUnreachable`, `id_map` is exactly
as before, and no client entry that existed before the call was removed
(the candidate loop may only have added connections). -/
theorem update_info_unreachable {hash : Nat → Nat} {env : UpdEnv} {m : Members}
    {addrs : List Nat}
    (h : ∀ a ∈ addrs, ∀ info, env.cluster_info (hash a) = some info → info.leader_id = 0) :
    (update_info hash env m addrs).2.2 = Except.error ClientError.ServerUnreachable ∧
    (update_info hash env m addrs).1.id_map = m.id_map ∧
    (∀ id ∈ m.clients, id ∈ (update_info hash env m addrs).1.clients) := by
  obtain ⟨h1, h2, h3⟩ := fetchInfo_fail m h
  cases hf : fetchInfo hash env addrs m with
  | mk m2 oinfo =>
    rw [hf] at h1 h2 h3
    simp only at h1 h2 h3
    subst h1
    rw [update_info, hf]
    exact ⟨rfl, h2, h3⟩

theorem update_info_unreachable_witness :
    (update_info (fun a => a) ⟨fun _ => true, fun _ => none⟩ ⟨[5], [(5, 50)]⟩ [7]).2.2 =
      Except.error ClientError.ServerUnreachable ∧
    (update_info (fun a => a) ⟨fun _ => true, fun _ => none⟩ ⟨[5], [(5, 50)]⟩ [7]).1.id_map =
      Members.id_map ⟨[5], [(5, 50)]⟩ ∧
    (∀ id ∈ Members.clients ⟨[5], [(5, 50)]⟩,
      id ∈ (update_info (fun a => a) ⟨fun _ => true, fun _ => none⟩ ⟨[5], [(5, 50)]⟩ [7]).1.clients) :=
  update_info_unreachable (fun _ _ _ hi => Option.noConfusion hi)

theorem keys_hinsert : ∀ {mp : List (Nat × Nat)} {k v t : Nat},
    t ∈ (hinsert mp k v).map Prod.fst ↔ t = k ∨ t ∈ mp.map Prod.fst := by
  intro mp
  induction mp with
  | nil => intro k v t; simp [hinsert]
  | cons q rest ih =>
    intro k v t
    obtain ⟨k2, w⟩ := q
    by_cases h : k2 = k
    · subst h; simp [hinsert]
    · simp [hinsert, h, ih]; tauto

theorem mem_hinsert : ∀ {mp : List (Nat × Nat)} {k v : Nat} {p : Nat × Nat},
    p ∈ hinsert mp k v → p ∈ mp ∨ p = (k, v) := by
  intro mp
  induction mp with
  | nil => intro k v p h; simp [hinsert] at h; simp [h]
  | cons q rest ih =>
    intro k v p h
    obtain ⟨k2, w⟩ := q
    by_cases h2 : k2 = k
    · subst h2
      simp [hinsert] at h
      rcases h with h | h
      · right; simp [h]
      · left; simp [h]
    · simp [hinsert, h2] at h
      rcases h with h | h
      · left; simp [h]
      · rcases ih h with h3 | h3
        · left; simp [h3]
        · right; exact h3

theorem keys_foldl_hinsert : ∀ (l mp : List (Nat × Nat)) (t : Nat),
    t ∈ ((l.foldl (fun mp p => hinsert mp p.1 p.2) mp).map Prod.fst) ↔
      t ∈ mp.map Prod.fst ∨ t ∈ l.map Prod.fst := by
  intro l
  induction l with
  | nil => intro mp t; simp
  | cons q rest ih =>
    intro mp t
    rw [List.foldl_cons, ih, keys_hinsert]
    simp
    tauto

theorem entries_foldl_hinsert : ∀ (l mp : List (Nat × Nat)) (p : Nat × Nat),
    p ∈ l.foldl (fun mp q => hinsert mp q.1 q.2) mp → p ∈ mp ∨ p ∈ l := by
  intro l
  induction l with
  | nil => intro mp p h; exact Or.inl h
  | cons q rest ih =>
    intro mp p h
    rw [List.foldl_cons] at h
    rcases ih _ p h with h2 | h2
    · rcases mem_hinsert h2 with h3 | h3
      · exact Or.inl h3
      · right
        rw [h3]
        exact List.mem_cons_self _ _
    · right; exact List.mem_cons_of_mem _ h2

theorem mem_foldl_connect {env : UpdEnv} {idm : List (Nat × Nat)} :
    ∀ (fresh : List Nat) (cs : List Nat) (id : Nat),
    id ∈ fresh.foldl (fun cs id =>
      match idm.lookup id with
      | some addr => if id ∈ cs then cs else if env.pool addr then insortNat id cs else cs
      | none => cs) cs →
    id ∈ cs ∨ id ∈ fresh := by
  intro fresh
  induction fresh with
  | nil => intro cs id h; exact Or.inl h
  | cons f rest ih =>
    intro cs id h
    rw [List.foldl_cons] at h
    rcases ih _ id h with h2 | h2
    · cases hl : idm.lookup f with
      | none => rw [hl] at h2; exact Or.inl h2
      | some addr =>
        rw [hl] at h2
        have h2b : id ∈ (if f ∈ cs then cs
            else if env.pool addr = true then insortNat f cs else cs) := h2
        by_cases hf : f ∈ cs
        · rw [if_pos hf] at h2b; exact Or.inl h2b
        · rw [if_neg hf] at h2b
          by_cases hp : env.pool addr = true
          · rw [if_pos hp] at h2b
            rcases mem_insortNat.mp h2b with h3 | h3
            · right; rw [h3]; exact List.mem_cons_self _ _
            · exact Or.inl h3
          · rw [if_neg hp] at h2b; exact Or.inl h2b
    · right; exact List.mem_cons_of_mem _ h2

theorem applyInfo_clients_sub {env : UpdEnv} {m : Members} {info : ClientClusterInfo} :
    ∀ id ∈ (applyInfo env m info).clients, id ∈ (applyInfo env m info).id_map.map Prod.fst := by
  intro id hid
  simp only [applyInfo] at hid ⊢
  have hrid : id ∈ info.members.map Prod.fst := by
    rcases mem_foldl_connect _ _ _ hid with h | h
    · exact decide_eq_true_iff.mp (List.mem_filter.mp h).2
    · exact (List.mem_filter.mp h).1
  rw [keys_foldl_hinsert]
  exact Or.inr hrid

theorem applyInfo_idmap_entries {env : UpdEnv} {m : Members} {info : ClientClusterInfo} :
    ∀ p ∈ (applyInfo env m info).id_map, p ∈ info.members := by
  intro p hp
  rw [applyInfo] at hp
  simp only at hp
  rcases entries_foldl_hinsert _ _ _ hp with h | h
  · simp at h
  · exact h

/-- C5: after a successful `update_info`, every connected client id is a key
of `id_map`, every `id_map` entry is an `(id, address)` pair of the adopted
authoritative cluster info, and the published leader id is that info's
`leader_id`. -/
theorem update_info_success {hash : Nat → Nat} {env : UpdEnv} {m : Members}
    {addrs : List Nat}
    (h : (update_info hash env m addrs).2.2 = Except.ok ()) :
    ∃ m2 info, fetchInfo hash env addrs m = (m2, some info) ∧
      (update_info hash env m addrs).1 = applyInfo env m2 info ∧
      (update_info hash env m addrs).2.1 = some info.leader_id ∧
      (∀ id ∈ (applyInfo env m2 info).clients,
        id ∈ (applyInfo env m2 info).id_map.map Prod.fst) ∧
      (∀ p ∈ (applyInfo env m2 info).id_map, p ∈ info.members) := by
  rw [update_info] at h
  cases hf : fetchInfo hash env addrs m with
  | mk mm oinfo =>
    cases oinfo with
    | none => rw [hf] at h; simp at h
    | some info =>
      refine ⟨mm, info, rfl, ?_, ?_, applyInfo_clients_sub, applyInfo_idmap_entries⟩
      · rw [update_info, hf]
      · rw [update_info, hf]

theorem update_info_success_witness :
    ∃ m2 info,
      fetchInfo (fun a => a) ⟨fun _ => true, fun _ => some ⟨[(1, 10)], 1⟩⟩ [1] ⟨[], []⟩ =
        (m2, some info) ∧
      (update_info (fun a => a) ⟨fun _ => true, fun _ => some ⟨[(1, 10)], 1⟩⟩ ⟨[], []⟩ [1]).1 =
        applyInfo ⟨fun _ => true, fun _ => some ⟨[(1, 10)], 1⟩⟩ m2 info ∧
      (update_info (fun a => a) ⟨fun _ => true, fun _ => some ⟨[(1, 10)], 1⟩⟩ ⟨[], []⟩ [1]).2.1 =
        some info.leader_id ∧
      (∀ id ∈ (applyInfo ⟨fun _ => true, fun _ => some ⟨[(1, 10)], 1⟩⟩ m2 info).clients,
        id ∈ (applyInfo ⟨fun _ => true, fun _ => some ⟨[(1, 10)], 1⟩⟩ m2 info).id_map.map Prod.fst) ∧
      (∀ p ∈ (applyInfo ⟨fun _ => true, fun _ => some ⟨[(1, 10)], 1⟩⟩ m2 info).id_map,
        p ∈ info.members) :=
  update_info_success rfl

/-!
Query dispatch (`RaftClient::query`, client.rs lines 164-199).

Each invocation fetches and increments `qry_meta.pos`, contacts the
`(pos mod N)`-th replica (N = `members.clients.len()`), and on `LeftBehind`
retries with `depth + 1` unless `depth >= num_members` already holds —
note the depth check happens only after the RPC of the current invocation
has been issued.  The environment maps `(pos, replica index)` to the
replica's reply; the third result component counts issued `c_query` RPCs.
-/

/-- Sequential effect of one `swap_when_greater(atomic, value)` call: keep
the current value when `orig_num >= value`, else store `value` (the CAS
succeeds at once without interference). -/
def swap_when_greater_seq (orig value : Nat) : Nat :=
  if orig ≥ value then orig else value

/-- `enum ClientQryResponse`; `Failure` stands for any transport- or
application-level error (the `_ => Err(Unknown)` catch-all). -/
inductive ClientQryResponse where
  | LeftBehind
  | Success (data last_log_term last_log_id : Nat)
  | Failure
deriving DecidableEq, Repr

/-- The client state read and written by the query path. -/
structure QSt where
  pos : Nat
  last_log_id : Nat
  last_log_term : Nat
deriving DecidableEq, Repr

/-- `RaftClient::query`: one recursive invocation; returns the result, the
final client state and the number of `c_query` RPCs issued. -/
def queryGo (env : Nat → Nat → ClientQryResponse) (N : Nat) (s : QSt) (depth : Nat) :
    Except ExecError Nat × QSt × Nat :=
  let pos := s.pos
  let s1 : QSt := { s with pos := pos + 1 }
  match env pos (pos % N) with
  | ClientQryResponse.LeftBehind =>
    if h : N ≤ depth then (Except.error ExecError.TooManyRetry, s1, 1)
    else
      let r := queryGo env N s1 (depth + 1)
      (r.1, r.2.1, r.2.2 + 1)
  | ClientQryResponse.Success d llt lli =>
    (Except.ok d,
      { s1 with last_log_id := swap_when_greater_seq s1.last_log_id lli,
                last_log_term := swap_when_greater_seq s1.last_log_term llt }, 1)
  | ClientQryResponse.Failure => (Except.error ExecError.Unknown, s1, 1)
termination_by N + 1 - depth
decreasing_by simp_wf; omega

theorem queryGo_all_left_behind {env : Nat → Nat → ClientQryResponse} {N : Nat}
    (hLB : ∀ p r, env p r = ClientQryResponse.LeftBehind) :
    ∀ (k depth : Nat) (s : QSt), N - depth ≤ k → depth ≤ N →
    (queryGo env N s depth).1 = Except.error ExecError.TooManyRetry ∧
    (queryGo env N s depth).2.2 = N + 1 - depth := by
  intro k
  induction k with
  | zero =>
    intro depth s hk hd
    have hdN : N ≤ depth := by omega
    rw [queryGo, hLB, dif_pos hdN]
    exact ⟨rfl, by show (1 : Nat) = N + 1 - depth; omega⟩
  | succ k ih =>
    intro depth s hk hd
    by_cases hdN : N ≤ depth
    · rw [queryGo, hLB, dif_pos hdN]
      exact ⟨rfl, by show (1 : Nat) = N + 1 - depth; omega⟩
    · rw [queryGo, hLB, dif_neg hdN]
      obtain ⟨h1, h2⟩ := ih (depth + 1) { s with pos := s.pos + 1 } (by omega) (by omega)
      refine ⟨h1, ?_⟩
      show (queryGo env N
        { pos := s.pos + 1, last_log_id := s.last_log_id,
          last_log_term := s.last_log_term } (depth + 1)).2.2 + 1 = N + 1 - depth
      rw [h2]
      omega

theorem queryGo_attempts_le {N : Nat} (env : Nat → Nat → ClientQryResponse) :
    ∀ (k depth : Nat) (s : QSt), N - depth ≤ k →
    (queryGo env N s depth).2.2 ≤ (N - depth) + 1 := by
  intro k
  induction k with
  | zero =>
    intro depth s hk
    rw [queryGo]
    cases env s.pos (s.pos % N) with
    | LeftBehind =>
      have hdN : N ≤ depth := by omega
      rw [dif_pos hdN]
      show (1 : Nat) ≤ N - depth + 1
      omega
    | Success d llt lli => show (1 : Nat) ≤ N - depth + 1; omega
    | Failure => show (1 : Nat) ≤ N - depth + 1; omega
  | succ k ih =>
    intro depth s hk
    rw [queryGo]
    cases env s.pos (s.pos % N) with
    | LeftBehind =>
      by_cases hdN : N ≤ depth
      · rw [dif_pos hdN]
        show (1 : Nat) ≤ N - depth + 1
        omega
      · rw [dif_neg hdN]
        have hrec := ih (depth + 1) { s with pos := s.pos + 1 } (by omega)
        show (queryGo env N
          { pos := s.pos + 1, last_log_id := s.last_log_id,
            last_log_term := s.last_log_term } (depth + 1)).2.2 + 1 ≤ N - depth + 1
        omega
    | Success d llt lli => show (1 : Nat) ≤ N - depth + 1; omega
    | Failure => show (1 : Nat) ≤ N - depth + 1; omega

/-- C1 (amended): when every replica answers `LeftBehind`, the query path
issues exactly N+1 `c_query` RPCs (the depth bound is only checked after
the RPC of the current invocation) and then returns `TooManyRetry`; in
every execution the number of query RPCs is bounded by N+1.  (The
unamended claim said exactly N attempts and bound N.) -/
theorem query_all_left_behind_budget {env : Nat → Nat → ClientQryResponse} {N : Nat}
    (hN : 0 < N) (hLB : ∀ p r, env p r = ClientQryResponse.LeftBehind) (s : QSt) :
    ((queryGo env N s 0).1 = Except.error ExecError.TooManyRetry ∧
     (queryGo env N s 0).2.2 = N + 1) ∧
    (∀ (env2 : Nat → Nat → ClientQryResponse) (s2 : QSt),
      (queryGo env2 N s2 0).2.2 ≤ N + 1) := by
  constructor
  · obtain ⟨h1, h2⟩ := @queryGo_all_left_behind env N hLB N 0 s (by omega) (by omega)
    exact ⟨h1, by omega⟩
  · intro env2 s2
    have := @queryGo_attempts_le N env2 N 0 s2 (by omega)
    omega

/-- C1 counterexample: with a single replica (N = 1) that always answers
`LeftBehind`, the query path issues 2 RPCs — not the claimed N = 1 — before
returning `TooManyRetry`. -/
theorem query_budget_cex :
    (queryGo (fun _ _ => ClientQryResponse.LeftBehind) 1 ⟨0, 0, 0⟩ 0).2.2 = 2 ∧
    (queryGo (fun _ _ => ClientQryResponse.LeftBehind) 1 ⟨0, 0, 0⟩ 0).2.2 ≠ 1 ∧
    (queryGo (fun _ _ => ClientQryResponse.LeftBehind) 1 ⟨0, 0, 0⟩ 0).1 =
      Except.error ExecError.TooManyRetry := by
  obtain ⟨h1, h2⟩ :=
    @queryGo_all_left_behind (fun _ _ => ClientQryResponse.LeftBehind) 1
      (fun _ _ => rfl) 1 0 ⟨0, 0, 0⟩ (by omega) (by omega)
  refine ⟨by omega, by omega, h1⟩

theorem query_all_left_behind_budget_witness :
    0 < 2 ∧
    (((queryGo (fun _ _ => ClientQryResponse.LeftBehind) 2 ⟨0, 0, 0⟩ 0).1 =
        Except.error ExecError.TooManyRetry ∧
      (queryGo (fun _ _ => ClientQryResponse.LeftBehind) 2 ⟨0, 0, 0⟩ 0).2.2 = 2 + 1) ∧
     (∀ (env2 : Nat → Nat → ClientQryResponse) (s2 : QSt),
       (queryGo env2 2 s2 0).2.2 ≤ 2 + 1)) :=
  ⟨by decide, query_all_left_behind_budget (by decide) (fun _ _ => rfl) ⟨0, 0, 0⟩⟩

/-!
Command dispatch (`RaftClient::command`, client.rs lines 201-282).

Each attempt checks the depth against the current membership size, contacts
the cached leader when it is a connected replica, and classifies the
outcome: `Success` returns after advancing the log coordinates; `NotLeader`
re-caches the hinted leader and retries; `NotCommitted` returns the error
at once; a transport or server error rotates the cached leader to the
`(pos mod N)`-th connected id and retries; an unknown leader runs
`update_info` over the known addresses (ignoring its result) and retries.
The recursion depth strictly increases but the membership size read at each
attempt can grow after a refresh, so the embedding carries explicit fuel
(`none` = fuel ran out, never happens with fuel above the attempt count).
The third result component counts issued `c_command` RPCs.
-/

/-- `enum ClientCmdResponse`; `Failure` covers both `Err(e)` and
`Ok(Err(e))`, which the code treats identically (SwitchLeader). -/
inductive ClientCmdResponse where
  | Success (data last_log_term last_log_id : Nat)
  | NotLeader (leader_id : Nat)
  | NotCommitted
  | Failure
deriving DecidableEq, Repr

/-- Oracle environment for a command dispatch: the reply of server `id` to
the `c_command` issued at attempt `depth`, and the refresh environment in
effect at attempt `depth`. -/
structure CmdEnv where
  cmd : Nat → Nat → ClientCmdResponse
  upd : Nat → UpdEnv

/-- The `RaftClient` state the command path reads and writes. -/
structure RC where
  pos : Nat
  leader_id : Nat
  last_log_id : Nat
  last_log_term : Nat
  members : Members
deriving DecidableEq, Repr

/-- `RaftClient::command`: result, final state and number of `c_command`
RPCs issued, or `none` when the modelling fuel runs out. -/
def commandGo (hash : Nat → Nat) (env : CmdEnv) :
    Nat → RC → Nat → Option (Except ExecError Nat × RC × Nat)
  | 0, _, _ => none
  | fuel + 1, s, depth =>
    let N := s.members.clients.length
    if N ≤ depth then some (Except.error ExecError.TooManyRetry, s, 0)
    else if s.leader_id ∈ s.members.clients then
      match env.cmd depth s.leader_id with
      | ClientCmdResponse.Success d llt lli =>
        some (Except.ok d,
          { s with last_log_id := swap_when_greater_seq s.last_log_id lli,
                   last_log_term := swap_when_greater_seq s.last_log_term llt }, 1)
      | ClientCmdResponse.NotLeader l =>
        (commandGo hash env fuel { s with leader_id := l } (depth + 1)).map
          (fun r => (r.1, r.2.1, r.2.2 + 1))
      | ClientCmdResponse.NotCommitted =>
        some (Except.error ExecError.NotCommitted, s, 1)
      | ClientCmdResponse.Failure =>
        let idx := (s.members.clients.get? (s.pos % N)).getD s.leader_id
        (commandGo hash env fuel { s with leader_id := idx } (depth + 1)).map
          (fun r => (r.1, r.2.1, r.2.2 + 1))
    else
      let addrs := s.members.id_map.map Prod.snd
      let r := update_info hash (env.upd depth) s.members addrs
      let s2 : RC := { s with members := r.1, leader_id := (r.2.1).getD s.leader_id }
      commandGo hash env fuel s2 (depth + 1)

/-- C3: when the contacted leader replica answers `NotCommitted`, the
command path returns `NotCommitted` at once with exactly one `c_command`
RPC issued (no retry), and the client state — in particular `leader_id`,
`last_log_id` and `last_log_term` — is returned unchanged. -/
theorem command_not_committed_terminal (hash : Nat → Nat) (env : CmdEnv)
    (fuel : Nat) (s : RC) (depth : Nat)
    (hdep : depth < s.members.clients.length)
    (hleader : s.leader_id ∈ s.members.clients)
    (hresp : env.cmd depth s.leader_id = ClientCmdResponse.NotCommitted) :
    commandGo hash env (fuel + 1) s depth =
      some (Except.error ExecError.NotCommitted, s, 1) := by
  have hN : ¬ s.members.clients.length ≤ depth := by omega
  rw [commandGo]
  rw [if_neg hN, if_pos hleader, hresp]

theorem command_not_committed_terminal_witness :
    commandGo (fun a => a)
      ⟨fun _ _ => ClientCmdResponse.NotCommitted, fun _ => ⟨fun _ => false, fun _ => none⟩⟩
      1 ⟨0, 1, 0, 0, ⟨[1], []⟩⟩ 0 =
      some (Except.error ExecError.NotCommitted, ⟨0, 1, 0, 0, ⟨[1], []⟩⟩, 1) :=
  command_not_committed_terminal (fun a => a)
    ⟨fun _ _ => ClientCmdResponse.NotCommitted, fun _ => ⟨fun _ => false, fun _ => none⟩⟩
    0 ⟨0, 1, 0, 0, ⟨[1], []⟩⟩ 0 (by decide) (by decide) rfl

/-!
The concurrent `swap_when_greater` loop (client.rs lines 295-308), claim C2.

Each thread runs `orig_num = atomic.load(); loop { if orig_num >= value
return; actual = CAS(orig_num, value); if actual == orig_num return;
orig_num = actual }`.  A thread is either before its initial load
(`start`), holding a loaded value (`loaded orig`), or finished (`done`).
A schedule is a list of thread indices; each entry lets the named thread
run one atomic step (its load, or one check/CAS round).  Indices past the
thread list are no-ops, so every schedule is meaningful.
-/

/-- Program counter of one `swap_when_greater` caller. -/
inductive Phase where
  | start
  | loaded (orig : Nat)
  | done
deriving DecidableEq, Repr

/-- One concurrent caller: its proposed `value` and its phase. -/
structure SwapThread where
  v : Nat
  ph : Phase
deriving DecidableEq, Repr

/-- The shared `AtomicU64` together with all callers. -/
structure SwapState where
  atomic : Nat
  threads : List SwapThread
deriving DecidableEq, Repr

/-- One atomic step of a caller: the initial `load`, or one
`if orig_num >= value return; CAS` round (returning on success, reloading
the actual value on loss). -/
def stepThread (atomic : Nat) (t : SwapThread) : Nat × SwapThread :=
  match t.ph with
  | Phase.start => (atomic, { t with ph := Phase.loaded atomic })
  | Phase.loaded orig =>
    if orig ≥ t.v then (atomic, { t with ph := Phase.done })
    else if atomic = orig then (t.v, { t with ph := Phase.done })
    else (atomic, { t with ph := Phase.loaded atomic })
  | Phase.done => (atomic, t)

/-- Let thread `i` take one atomic step. -/
def microStep (s : SwapState) (i : Nat) : SwapState :=
  match s.threads.get? i with
  | none => s
  | some t =>
    let r := stepThread s.atomic t
    { atomic := r.1, threads := s.threads.set i r.2 }

/-- Run a whole interleaving. -/
def swapRun (s : SwapState) (sched : List Nat) : SwapState := sched.foldl microStep s

/-- All callers poised at their initial load. -/
def initState (init : Nat) (vs : List Nat) : SwapState :=
  { atomic := init, threads := vs.map (fun v => { v := v, ph := Phase.start }) }

/-- `max(init, v1, ..., vk)`. -/
def maxAll (init : Nat) (vs : List Nat) : Nat := vs.foldr max init

theorem le_maxAll_init (init : Nat) : ∀ vs : List Nat, init ≤ maxAll init vs := by
  intro vs
  induction vs with
  | nil => exact le_refl _
  | cons v rest ih => exact le_trans ih (le_max_right _ _)

theorem le_maxAll_mem {init v : Nat} : ∀ {vs : List Nat}, v ∈ vs → v ≤ maxAll init vs := by
  intro vs
  induction vs with
  | nil => intro h; simp at h
  | cons w rest ih =>
    intro h
    rcases List.mem_cons.mp h with h | h
    · subst h; exact le_max_left _ _
    · exact le_trans (ih h) (le_max_right _ _)

theorem maxAll_le {init c : Nat} : ∀ {vs : List Nat}, init ≤ c → (∀ v ∈ vs, v ≤ c) →
    maxAll init vs ≤ c := by
  intro vs
  induction vs with
  | nil => intro h _; exact h
  | cons w rest ih =>
    intro h hv
    have h1 : w ≤ c := hv w (List.mem_cons_self _ _)
    have h2 : maxAll init rest ≤ c := ih h (fun v hm => hv v (List.mem_cons_of_mem _ hm))
    exact max_le h1 h2

theorem stepThread_v (atomic : Nat) (t : SwapThread) : (stepThread atomic t).2.v = t.v := by
  rcases t with ⟨v, ph⟩
  cases ph with
  | start => rfl
  | loaded orig =>
    by_cases h1 : orig ≥ v
    · simp [stepThread, h1]
    · by_cases h2 : atomic = orig
      · simp [stepThread, h1, h2]
      · simp [stepThread, h1, h2]
  | done => rfl

theorem stepThread_atomic_le (atomic : Nat) (t : SwapThread) :
    atomic ≤ (stepThread atomic t).1 := by
  rcases t with ⟨v, ph⟩
  cases ph with
  | start => exact le_refl _
  | loaded orig =>
    by_cases h1 : orig ≥ v
    · simp [stepThread, h1]
    · by_cases h2 : atomic = orig
      · simp [stepThread, h1, h2]
        omega
      · simp [stepThread, h1, h2]
  | done => exact le_refl _

theorem microStep_eq_none {s : SwapState} {i : Nat} (h : s.threads.get? i = none) :
    microStep s i = s := by
  rw [microStep, h]

theorem microStep_eq_some {s : SwapState} {i : Nat} {t : SwapThread}
    (h : s.threads.get? i = some t) :
    microStep s i = { atomic := (stepThread s.atomic t).1,
                      threads := s.threads.set i (stepThread s.atomic t).2 } := by
  rw [microStep, h]

theorem microStep_atomic_le (s : SwapState) (i : Nat) :
    s.atomic ≤ (microStep s i).atomic := by
  cases hget : s.threads.get? i with
  | none => rw [microStep_eq_none hget]
  | some t =>
    rw [microStep_eq_some hget]
    exact stepThread_atomic_le s.atomic t

theorem swapRun_atomic_le : ∀ (sched : List Nat) (s : SwapState),
    s.atomic ≤ (swapRun s sched).atomic := by
  intro sched
  induction sched with
  | nil => intro s; exact le_refl _
  | cons i rest ih =>
    intro s
    rw [swapRun, List.foldl_cons]
    exact le_trans (microStep_atomic_le s i) (ih (microStep s i))

theorem map_v_set : ∀ {l : List SwapThread} {i : Nat} {t t2 : SwapThread},
    l.get? i = some t → t2.v = t.v →
    (l.set i t2).map SwapThread.v = l.map SwapThread.v := by
  intro l
  induction l with
  | nil => intro i t t2 h _; exact absurd h (by simp [List.get?])
  | cons a rest ih =>
    intro i t t2 h hv
    cases i with
    | zero =>
      have ha : a = t := Option.some.inj h
      subst ha
      show t2.v :: rest.map SwapThread.v = a.v :: rest.map SwapThread.v
      rw [hv]
    | succ i =>
      have h2 : rest.get? i = some t := h
      show a.v :: (rest.set i t2).map SwapThread.v = a.v :: rest.map SwapThread.v
      rw [ih h2 hv]

theorem microStep_vs (s : SwapState) (i : Nat) :
    (microStep s i).threads.map SwapThread.v = s.threads.map SwapThread.v := by
  cases hget : s.threads.get? i with
  | none => rw [microStep_eq_none hget]
  | some t =>
    rw [microStep_eq_some hget]
    exact map_v_set hget (stepThread_v s.atomic t)

theorem swapRun_vs : ∀ (sched : List Nat) (s : SwapState),
    (swapRun s sched).threads.map SwapThread.v = s.threads.map SwapThread.v := by
  intro sched
  induction sched with
  | nil => intro s; rfl
  | cons i rest ih =>
    intro s
    rw [swapRun, List.foldl_cons]
    rw [show List.foldl microStep (microStep s i) rest = swapRun (microStep s i) rest from rfl]
    rw [ih (microStep s i), microStep_vs]

/-- The inductive invariant of the CAS loop: the atomic never went below
the initial value; finished threads have their value covered; loaded
snapshots are never above the current atomic; the atomic holds the initial
value or some caller's proposed value. -/
def SwapInv (init : Nat) (s : SwapState) : Prop :=
  init ≤ s.atomic ∧
  (∀ t ∈ s.threads, t.ph = Phase.done → t.v ≤ s.atomic) ∧
  (∀ t ∈ s.threads, ∀ o, t.ph = Phase.loaded o → o ≤ s.atomic) ∧
  (s.atomic = init ∨ s.atomic ∈ s.threads.map SwapThread.v)

theorem microStep_inv {init : Nat} {s : SwapState} (h : SwapInv init s) (i : Nat) :
    SwapInv init (microStep s i) := by
  obtain ⟨hA, hB, hC, hD⟩ := h
  cases hget : s.threads.get? i with
  | none =>
    rw [microStep_eq_none hget]
    exact ⟨hA, hB, hC, hD⟩
  | some t =>
    have htmem : t ∈ s.threads := List.get?_mem hget
    rcases t with ⟨v, ph⟩
    cases ph with
    | start =>
      have hstep : stepThread s.atomic ⟨v, Phase.start⟩ =
          (s.atomic, ⟨v, Phase.loaded s.atomic⟩) := rfl
      rw [microStep_eq_some hget, hstep]
      refine ⟨hA, ?_, ?_, ?_⟩
      · intro t2 ht2 hdone
        have ht2b : t2 ∈ s.threads.set i (⟨v, Phase.loaded s.atomic⟩ : SwapThread) := ht2
        rcases List.mem_or_eq_of_mem_set ht2b with hm | he
        · exact hB t2 hm hdone
        · rw [he] at hdone; simp at hdone
      · intro t2 ht2 o hlo
        have ht2b : t2 ∈ s.threads.set i (⟨v, Phase.loaded s.atomic⟩ : SwapThread) := ht2
        rcases List.mem_or_eq_of_mem_set ht2b with hm | he
        · exact hC t2 hm o hlo
        · rw [he] at hlo
          simp at hlo
          show o ≤ s.atomic
          omega
      · rcases hD with hd | hd
        · exact Or.inl hd
        · refine Or.inr ?_
          show s.atomic ∈ (s.threads.set i
            (⟨v, Phase.loaded s.atomic⟩ : SwapThread)).map SwapThread.v
          rw [map_v_set hget (rfl : SwapThread.v ⟨v, Phase.loaded s.atomic⟩ = v)]
          exact hd
    | loaded orig =>
      have horig : orig ≤ s.atomic := hC ⟨v, Phase.loaded orig⟩ htmem orig rfl
      by_cases h1 : orig ≥ v
      · have hstep : stepThread s.atomic ⟨v, Phase.loaded orig⟩ =
            (s.atomic, ⟨v, Phase.done⟩) := by simp [stepThread, h1]
        rw [microStep_eq_some hget, hstep]
        refine ⟨hA, ?_, ?_, ?_⟩
        · intro t2 ht2 hdone
          have ht2b : t2 ∈ s.threads.set i (⟨v, Phase.done⟩ : SwapThread) := ht2
          rcases List.mem_or_eq_of_mem_set ht2b with hm | he
          · exact hB t2 hm hdone
          · rw [he]
            show v ≤ s.atomic
            omega
        · intro t2 ht2 o hlo
          have ht2b : t2 ∈ s.threads.set i (⟨v, Phase.done⟩ : SwapThread) := ht2
          rcases List.mem_or_eq_of_mem_set ht2b with hm | he
          · exact hC t2 hm o hlo
          · rw [he] at hlo; simp at hlo
        · rcases hD with hd | hd
          · exact Or.inl hd
          · refine Or.inr ?_
            show s.atomic ∈ (s.threads.set i
              (⟨v, Phase.done⟩ : SwapThread)).map SwapThread.v
            rw [map_v_set hget (rfl : SwapThread.v ⟨v, Phase.done⟩ = v)]
            exact hd
      · by_cases h2 : s.atomic = orig
        · have hstep : stepThread s.atomic ⟨v, Phase.loaded orig⟩ =
              (v, ⟨v, Phase.done⟩) := by simp [stepThread, h1, h2]
          rw [microStep_eq_some hget, hstep]
          have hlt : s.atomic < v := by omega
          refine ⟨?_, ?_, ?_, ?_⟩
          · show init ≤ v
            omega
          · intro t2 ht2 hdone
            have ht2b : t2 ∈ s.threads.set i (⟨v, Phase.done⟩ : SwapThread) := ht2
            rcases List.mem_or_eq_of_mem_set ht2b with hm | he
            · have hle := hB t2 hm hdone
              show t2.v ≤ v
              omega
            · rw [he]
          · intro t2 ht2 o hlo
            have ht2b : t2 ∈ s.threads.set i (⟨v, Phase.done⟩ : SwapThread) := ht2
            rcases List.mem_or_eq_of_mem_set ht2b with hm | he
            · have hle := hC t2 hm o hlo
              show o ≤ v
              omega
            · rw [he] at hlo; simp at hlo
          · refine Or.inr ?_
            show v ∈ (s.threads.set i
              (⟨v, Phase.done⟩ : SwapThread)).map SwapThread.v
            rw [map_v_set hget (rfl : SwapThread.v ⟨v, Phase.done⟩ = v)]
            exact List.mem_map.mpr ⟨⟨v, Phase.loaded orig⟩, htmem, rfl⟩
        · have hstep : stepThread s.atomic ⟨v, Phase.loaded orig⟩ =
              (s.atomic, ⟨v, Phase.loaded s.atomic⟩) := by simp [stepThread, h1, h2]
          rw [microStep_eq_some hget, hstep]
          refine ⟨hA, ?_, ?_, ?_⟩
          · intro t2 ht2 hdone
            have ht2b : t2 ∈ s.threads.set i
                (⟨v, Phase.loaded s.atomic⟩ : SwapThread) := ht2
            rcases List.mem_or_eq_of_mem_set ht2b with hm | he
            · exact hB t2 hm hdone
            · rw [he] at hdone; simp at hdone
          · intro t2 ht2 o hlo
            have ht2b : t2 ∈ s.threads.set i
                (⟨v, Phase.loaded s.atomic⟩ : SwapThread) := ht2
            rcases List.mem_or_eq_of_mem_set ht2b with hm | he
            · exact hC t2 hm o hlo
            · rw [he] at hlo
              simp at hlo
              show o ≤ s.atomic
              omega
          · rcases hD with hd | hd
            · exact Or.inl hd
            · refine Or.inr ?_
              show s.atomic ∈ (s.threads.set i
                (⟨v, Phase.loaded s.atomic⟩ : SwapThread)).map SwapThread.v
              rw [map_v_set hget (rfl : SwapThread.v ⟨v, Phase.loaded s.atomic⟩ = v)]
              exact hd
    | done =>
      have hstep : stepThread s.atomic ⟨v, Phase.done⟩ = (s.atomic, ⟨v, Phase.done⟩) := rfl
      rw [microStep_eq_some hget, hstep]
      refine ⟨hA, ?_, ?_, ?_⟩
      · intro t2 ht2 hdone
        have ht2b : t2 ∈ s.threads.set i (⟨v, Phase.done⟩ : SwapThread) := ht2
        rcases List.mem_or_eq_of_mem_set ht2b with hm | he
        · exact hB t2 hm hdone
        · rw [he]
          exact hB ⟨v, Phase.done⟩ htmem rfl
      · intro t2 ht2 o hlo
        have ht2b : t2 ∈ s.threads.set i (⟨v, Phase.done⟩ : SwapThread) := ht2
        rcases List.mem_or_eq_of_mem_set ht2b with hm | he
        · exact hC t2 hm o hlo
        · rw [he] at hlo; simp at hlo
      · rcases hD with hd | hd
        · exact Or.inl hd
        · refine Or.inr ?_
          show s.atomic ∈ (s.threads.set i
            (⟨v, Phase.done⟩ : SwapThread)).map SwapThread.v
          rw [map_v_set hget (rfl : SwapThread.v ⟨v, Phase.done⟩ = v)]
          exact hd

theorem swapRun_inv {init : Nat} : ∀ (sched : List Nat) {s : SwapState},
    SwapInv init s → SwapInv init (swapRun s sched) := by
  intro sched
  induction sched with
  | nil => intro s h; exact h
  | cons i rest ih =>
    intro s h
    rw [swapRun, List.foldl_cons]
    exact ih (microStep_inv h i)

theorem initState_inv (init : Nat) (vs : List Nat) : SwapInv init (initState init vs) := by
  refine ⟨le_refl _, ?_, ?_, Or.inl rfl⟩
  · intro t ht hdone
    rcases List.mem_map.mp ht with ⟨v, _, rfl⟩
    simp at hdone
  · intro t ht o hlo
    rcases List.mem_map.mp ht with ⟨v, _, rfl⟩
    simp at hlo

theorem initState_vs (init : Nat) (vs : List Nat) :
    (initState init vs).threads.map SwapThread.v = vs := by
  show (vs.map (fun v => ({ v := v, ph := Phase.start } : SwapThread))).map SwapThread.v = vs
  rw [List.map_map]
  exact List.map_id vs

/-- C2: for any initial value and any interleaving of `swap_when_greater`
callers with proposed values `v1...vk`: the atomic never decreases across
any prefix of the schedule; when every caller has finished, the atomic
equals `max(init, v1, ..., vk)`; and a single uninterrupted call leaves the
atomic at `max(current, v)`. -/
theorem swap_when_greater_correct (init : Nat) (vs : List Nat) (sched : List Nat) :
    (∀ pre suf, sched = pre ++ suf →
      (swapRun (initState init vs) pre).atomic ≤
        (swapRun (initState init vs) sched).atomic) ∧
    ((∀ t ∈ (swapRun (initState init vs) sched).threads, t.ph = Phase.done) →
      (swapRun (initState init vs) sched).atomic = maxAll init vs) ∧
    (∀ cur v : Nat,
      (swapRun { atomic := cur, threads := [{ v := v, ph := Phase.start }] } [0, 0]).atomic =
        max cur v) := by
  refine ⟨?_, ?_, ?_⟩
  · intro pre suf hps
    subst hps
    have hsplit : swapRun (initState init vs) (pre ++ suf) =
        swapRun (swapRun (initState init vs) pre) suf := by
      simp only [swapRun, List.foldl_append]
    rw [hsplit]
    exact swapRun_atomic_le suf _
  · intro hdone
    obtain ⟨hA, hB, _, hD⟩ := swapRun_inv sched (initState_inv init vs)
    have hvs : (swapRun (initState init vs) sched).threads.map SwapThread.v = vs := by
      rw [swapRun_vs, initState_vs]
    apply le_antisymm
    · rcases hD with h | h
      · rw [h]; exact le_maxAll_init init vs
      · rw [hvs] at h
        exact le_maxAll_mem h
    · apply maxAll_le hA
      intro v hv
      rw [← hvs] at hv
      rcases List.mem_map.mp hv with ⟨t, htm, rfl⟩
      exact hB t htm (hdone t htm)
  · intro cur v
    by_cases h : cur ≥ v
    · have hmax : max cur v = cur := by omega
      rw [hmax]
      simp [swapRun, microStep, stepThread, List.get?, List.set, h]
    · have hmax : max cur v = v := by omega
      rw [hmax]
      simp [swapRun, microStep, stepThread, List.get?, List.set, h]

theorem swap_when_greater_correct_witness :
    (∀ t ∈ (swapRun (initState 0 [3, 1]) [0, 0, 1, 1]).threads,
      SwapThread.ph t = Phase.done) ∧
    (swapRun (initState 0 [3, 1]) [0, 0, 1, 1]).atomic = maxAll 0 [3, 1] :=
  ⟨by decide, (swap_when_greater_correct 0 [3, 1] [0, 0, 1, 1]).2.1 (by decide)⟩

end Bifrost
